import Mathlib

/-!
Verification of the hierarchy resolution and mapping engine of `bmt_lite`
(`src/bmt_lite/__init__.py`).  The Python `Toolkit` class is embedded
shallowly: Python dicts become association lists (insertion-ordered, keys
unique because Python dicts guarantee it), Python `None` becomes
`Option.none` (or `PyVal.none` at the query boundary), and the two
recursive traversals (`ancestors`, `descendents`), which the source
terminates only by the acyclicity of the schema, become fuelled
recursions whose fuel is large enough under the acyclicity invariant.
-/

namespace BmtLite

/-- A Python runtime value as it can appear as a query argument: the tests
exercise the public methods with `None`, `3`, `"invalid"` and `0.25`.
Only equality is ever used on these values (dict lookup and `in`). -/
inductive PyVal : Type where
  | none : PyVal
  | str : String → PyVal
  | int : Int → PyVal
  | float : Rat → PyVal
deriving DecidableEq

/-- The properties of one schema element that the engine reads:
`value.get("is_a", None)`, `element.get("in_subset", [])` and
`element.get("mappings", [])`.  All other YAML keys are opaque to the
engine and are dropped from the embedding. -/
structure Props : Type where
  is_a : Option String
  in_subset : List String
  mappings : List String
deriving DecidableEq

/-- First-match lookup in an association list: the semantics of
`d[k]` / `d.get(k)` on a Python dict represented as its item list. -/
def alookup {α β : Type} [DecidableEq α] (k : α) : List (α × β) → Option β
  | [] => Option.none
  | kv :: rest => if kv.1 = k then some kv.2 else alookup k rest

/-- The item list of the Python dict-merge `{**a, **b}`: the keys of `a`
in order (values overridden by `b` where both have the key), then the
keys of `b` that are not in `a`, in order. -/
def pyMerge {α β : Type} [DecidableEq α] (a b : List (α × β)) : List (α × β) :=
  a.map (fun kv => (kv.1, (alookup kv.1 b).getD kv.2))
    ++ b.filter (fun kv => (alookup kv.1 a).isNone)

/-- One step of the `defaultdict(list)` loop
`self.slot_children[parent].append(child)`: append `c` to the group of
`p`, creating the group at the end if it does not exist yet. -/
def addChild (acc : List (Option String × List String)) (p : Option String)
    (c : String) : List (Option String × List String) :=
  if acc.any (fun kv => kv.1 = p) then
    acc.map (fun kv => if kv.1 = p then (kv.1, kv.2 ++ [c]) else kv)
  else
    acc ++ [(p, [c])]

/-- The `(child, parent)` pairs visited, in order, by the loop
`for child, parents in X_parents.items(): for parent in parents: ...`. -/
def pairsOf (ps : List (String × List (Option String))) :
    List (String × Option String) :=
  ps.flatMap (fun kv => kv.2.map (fun p => (kv.1, p)))

/-- The loop `for child, parents in X_parents.items(): for parent in
parents: X_children[parent].append(child)`, flattened to the sequence of
`(child, parent)` pairs it visits (the flattening preserves the exact
order of the `append` operations). -/
def buildChildren (ps : List (String × List (Option String))) :
    List (Option String × List String) :=
  (pairsOf ps).foldl (fun acc cp => addChild acc cp.2 cp.1) []

/-- The engine state after `Toolkit.__init__` has read the parsed YAML:
the two category tables of the schema, in file order. -/
structure Toolkit : Type where
  slots : List (String × Props)
  classes : List (String × Props)

namespace Toolkit

/-- `self.elements = {**self.slots, **self.classes}`. -/
def elements (T : Toolkit) : List (String × Props) :=
  pyMerge T.slots T.classes

/-- `self.slot_parents = {key: [value.get("is_a", None)] for ...}`. -/
def slot_parents (T : Toolkit) : List (String × List (Option String)) :=
  T.slots.map (fun kv => (kv.1, [kv.2.is_a]))

/-- `self.class_parents = {key: [value.get("is_a", None)] for ...}`. -/
def class_parents (T : Toolkit) : List (String × List (Option String)) :=
  T.classes.map (fun kv => (kv.1, [kv.2.is_a]))

/-- `self.slot_children`, built by the defaultdict loop. -/
def slot_children (T : Toolkit) : List (Option String × List String) :=
  buildChildren T.slot_parents

/-- `self.class_children`, built by the defaultdict loop. -/
def class_children (T : Toolkit) : List (Option String × List String) :=
  buildChildren T.class_parents

/-- `self._children = {**self.slot_children, **self.class_children}`. -/
def childrenD (T : Toolkit) : List (Option String × List String) :=
  pyMerge T.slot_children T.class_children

/-- `self._parents = {**self.slot_parents, **self.class_parents}`. -/
def parentsD (T : Toolkit) : List (String × List (Option String)) :=
  pyMerge T.slot_parents T.class_parents

/-- `Toolkit.parent`: `self._parents[name]` (a `KeyError` is caught and
gives `None`), then `parents[0]`.  The stored lists are always the
singleton `[is_a]`, so the head always exists; an empty list (which
would raise `IndexError` in Python) is mapped to `none`, an unreachable
branch. -/
def parent (T : Toolkit) (name : String) : Option String :=
  match alookup name T.parentsD with
  | Option.none => Option.none
  | some [] => Option.none
  | some (p :: _) => p

/-- `Toolkit.children` at a key that is an element name or the `None`
root marker: `self._children.get(name, [])`. -/
def childrenO (T : Toolkit) (k : Option String) : List String :=
  (alookup k T.childrenD).getD []

/-- `Toolkit.children` on a string input. -/
def children (T : Toolkit) (name : String) : List String :=
  T.childrenO (some name)

/-- Fuel bound for the `ancestors` recursion: one more than the number
of entries of `self._parents`; under acyclicity the parent chain can
never be that long. -/
def ancFuel (T : Toolkit) : Nat :=
  T.parentsD.length + 1

end Toolkit

/-- `Toolkit.ancestors`, made total with fuel: the source recursion
`[parent] + self.ancestors(parent)` terminates only because the schema
is acyclic; with fuel at least `ancFuel` the two agree (proved below
under the acyclicity invariant). -/
def ancAux (T : Toolkit) : Nat → String → List String
  | 0, _ => []
  | fuel + 1, name =>
    match T.parent name with
    | Option.none => []
    | some p => p :: ancAux T fuel p

namespace Toolkit

/-- `Toolkit.ancestors` on a string input. -/
def ancestors (T : Toolkit) (name : String) : List String :=
  ancAux T T.ancFuel name

/-- Fuel bound for the `descendents` recursion. -/
def descFuel (T : Toolkit) : Nat :=
  T.elements.length + 1

end Toolkit

/-- `Toolkit.descendents`, made total with fuel; the key is the argument
of the inner `self.children` call (`some name` for a string input, the
`None` root-group key is reachable by a direct `descendents(None)`
call). -/
def descAux (T : Toolkit) : Nat → Option String → List String
  | 0, _ => []
  | fuel + 1, k =>
    (T.childrenO k).flatMap (fun c => c :: descAux T fuel (some c))

namespace Toolkit

/-- `Toolkit.descendents` on a string input:
`c = []; for child in self.children(name): c.append(child);
c += self.descendents(child); return c`. -/
def descendents (T : Toolkit) (name : String) : List String :=
  descAux T T.descFuel (some name)

/-- `Toolkit.get_element`: `self.elements.get(name, None)`. -/
def get_element (T : Toolkit) (name : String) : Option Props :=
  alookup name T.elements

/-- `Toolkit.get_all_by_mapping`: the names of the elements whose
`mappings` list contains the identifier, in `self.elements` iteration
order (the source collects them into a `set`; the keys of `elements`
are unique, so the list below has no duplicates and represents it). -/
def get_all_by_mapping (T : Toolkit) (uriorcurie : String) : List String :=
  (T.elements.filter (fun kv => decide (uriorcurie ∈ kv.2.mappings))).map
    (fun kv => kv.1)

/-- The chain `[mapping] + self.ancestors(mapping)` used by
`get_by_mapping`: the element itself followed by its ancestors,
nearest first. -/
def chain (T : Toolkit) (name : String) : List String :=
  name :: T.ancestors name

end Toolkit

/-- The `for mapping in mappings[1:]` loop of `Toolkit.get_by_mapping`:
filter the running chain by membership in each remaining element's
chain, returning `None` as soon as it empties, else its first entry. -/
def gbLoop (T : Toolkit) : List String → List String → Option String
  | [], shared => shared.head?
  | m :: rest, shared =>
    let shared2 := shared.filter (fun a => decide (a ∈ T.chain m))
    if shared2.isEmpty then Option.none else gbLoop T rest shared2

namespace Toolkit

/-- The body of `Toolkit.get_by_mapping` after
`mappings = list(self.get_all_by_mapping(uriorcurie))`, parametrised by
that list (the Python `set` enumeration order is unspecified; claim C10
below shows the result does not depend on it). -/
def get_by_mapping_from (T : Toolkit) (ms : List String) : Option String :=
  match ms with
  | [] => Option.none
  | m0 :: rest =>
    let sa := T.chain m0
    if sa.isEmpty then Option.none else gbLoop T rest sa

/-- `Toolkit.get_by_mapping` on a string identifier. -/
def get_by_mapping (T : Toolkit) (uriorcurie : String) : Option String :=
  T.get_by_mapping_from (T.get_all_by_mapping uriorcurie)

/-- `Toolkit.is_edgelabel`:
`"translator_minimal" in element.get("in_subset", [])`. -/
def is_edge_label (T : Toolkit) (name : String) : Bool :=
  match T.get_element name with
  | Option.none => false
  | some el => decide ("translator_minimal" ∈ el.in_subset)

/-- `Toolkit.is_category`:
`name == "named thing" or "named thing" in self.ancestors(name)`. -/
def is_category (T : Toolkit) (name : String) : Bool :=
  decide (name = "named thing") || decide ("named thing" ∈ T.ancestors name)

/-!
The Python methods accept an argument of any runtime type: the dicts are
keyed by strings (and, for `_children`, also by `None`), so a key of any
other type misses every entry; the `in` checks compare the argument
against strings and fail on anything that is not an equal string.  The
`Py`-suffixed variants below are the same operations at that boundary.
-/

/-- `Toolkit.parent` on an arbitrary value: `self._parents` has only
string keys, so every non-string argument raises the caught `KeyError`
and yields `None`. -/
def parentPy (T : Toolkit) (v : PyVal) : Option String :=
  match v with
  | PyVal.str s => T.parent s
  | _ => Option.none

/-- `Toolkit.children` on an arbitrary value: `self._children` has the
key `None` (the root group) and string keys. -/
def childrenPy (T : Toolkit) (v : PyVal) : List String :=
  match v with
  | PyVal.none => T.childrenO Option.none
  | PyVal.str s => T.childrenO (some s)
  | _ => []

/-- `Toolkit.ancestors` on an arbitrary value: `parent` of a non-string
is `None`, so the recursion stops immediately. -/
def ancestorsPy (T : Toolkit) (v : PyVal) : List String :=
  match v with
  | PyVal.str s => T.ancestors s
  | _ => []

/-- `Toolkit.descendents` on an arbitrary value: the argument only
flows into `self.children`. -/
def descendentsPy (T : Toolkit) (v : PyVal) : List String :=
  match v with
  | PyVal.none => descAux T T.descFuel Option.none
  | PyVal.str s => T.descendents s
  | _ => []

/-- `Toolkit.get_element` on an arbitrary value. -/
def get_elementPy (T : Toolkit) (v : PyVal) : Option Props :=
  match v with
  | PyVal.str s => T.get_element s
  | _ => Option.none

/-- `Toolkit.is_edgelabel` on an arbitrary value. -/
def is_edge_labelPy (T : Toolkit) (v : PyVal) : Bool :=
  match T.get_elementPy v with
  | Option.none => false
  | some el => decide ("translator_minimal" ∈ el.in_subset)

/-- `Toolkit.is_category` on an arbitrary value: `name == "named thing"`
is an equality test against a string. -/
def is_categoryPy (T : Toolkit) (v : PyVal) : Bool :=
  decide (v = PyVal.str "named thing")
    || decide ("named thing" ∈ T.ancestorsPy v)

/-- `Toolkit.get_all_by_mapping` on an arbitrary value: the membership
test `uriorcurie in element.get("mappings", [])` compares against the
strings of the list, so a non-string argument matches nothing. -/
def get_all_by_mappingPy (T : Toolkit) (v : PyVal) : List String :=
  match v with
  | PyVal.str s => T.get_all_by_mapping s
  | _ => []

/-- `Toolkit.get_by_mapping` on an arbitrary value. -/
def get_by_mappingPy (T : Toolkit) (v : PyVal) : Option String :=
  T.get_by_mapping_from (T.get_all_by_mappingPy v)

end Toolkit

/-!
## Concrete toolkits

Modelled from the spec: the repository's test data file
`tests/data/toy_model.yml` is not part of the sources; the toy taxonomy
below is reconstructed from the spec's testable-properties section (the
chain `related to` ← `affects` ← `regulates` ←
`regulates, process to process` ← `negatively regulates, process to
process`, probe mappings `probe1` … `probe4`) together with the second
ancestor path named by the same worked example
(`regulates` ← `regulates, entity to entity` ←
{`positively regulates, entity to entity`,
`negatively regulates, entity to entity`}).
-/

/-- Modelled from the spec: the slot category of the toy taxonomy of
the spec's testable-properties section (`toy_model.yml` is not among
the sources). -/
def toySlots : List (String × Props) :=
  [ ("related to", ⟨Option.none, [], []⟩),
    ("affects", ⟨some "related to", [],
      ["biolink:probe1", "biolink:probe2", "biolink:probe4"]⟩),
    ("regulates", ⟨some "affects", [], []⟩),
    ("regulates, process to process", ⟨some "regulates", [],
      ["biolink:probe3", "biolink:probe4"]⟩),
    ("negatively regulates, process to process",
      ⟨some "regulates, process to process", [],
      ["biolink:probe2", "biolink:probe3", "biolink:probe4"]⟩),
    ("regulates, entity to entity", ⟨some "regulates", [],
      ["biolink:probe3", "biolink:probe4"]⟩),
    ("positively regulates, entity to entity",
      ⟨some "regulates, entity to entity", [],
      ["biolink:probe3", "biolink:probe4"]⟩),
    ("negatively regulates, entity to entity",
      ⟨some "regulates, entity to entity", [], []⟩),
    ("contributes to", ⟨some "related to", [], []⟩),
    ("causes", ⟨some "contributes to", ["translator_minimal"], []⟩) ]

/-- Modelled from the spec: the class category of the toy taxonomy
(`named thing` is the entity root; `gene` descends from it). -/
def toyClasses : List (String × Props) :=
  [ ("named thing", ⟨Option.none, [], []⟩),
    ("gene", ⟨some "named thing", [], []⟩) ]

/-- Modelled from the spec: the toy toolkit. -/
def toy : Toolkit :=
  ⟨toySlots, toyClasses⟩

/-!
## Dictionary lemmas
-/

theorem alookup_append {α β : Type} [DecidableEq α] (k : α)
    (l1 l2 : List (α × β)) :
    alookup k (l1 ++ l2) =
      match alookup k l1 with
      | some v => some v
      | Option.none => alookup k l2 := by
  induction l1 with
  | nil => simp [alookup]
  | cons kv rest ih =>
    simp only [List.cons_append, alookup]
    split <;> simp [ih]

theorem alookup_map_key {α β γ : Type} [DecidableEq α] (k : α)
    (f : α → β → γ) (l : List (α × β)) :
    alookup k (l.map (fun kv => (kv.1, f kv.1 kv.2))) =
      (alookup k l).map (f k) := by
  induction l with
  | nil => simp [alookup]
  | cons kv rest ih =>
    simp only [List.map_cons, alookup]
    by_cases h : kv.1 = k
    · subst h; simp
    · simp [h, ih]

theorem alookup_eq_none_iff {α β : Type} [DecidableEq α] (k : α)
    (l : List (α × β)) :
    alookup k l = Option.none ↔ k ∉ l.map (fun kv => kv.1) := by
  induction l with
  | nil => simp [alookup]
  | cons kv rest ih =>
    by_cases h : kv.1 = k
    · subst h
      simp [alookup]
    · have hne : ¬ k = kv.1 := fun hh => h hh.symm
      simp [alookup, h, hne, ih]

theorem alookup_mem {α β : Type} [DecidableEq α] {k : α} {v : β}
    {l : List (α × β)} (h : alookup k l = some v) : (k, v) ∈ l := by
  induction l with
  | nil => simp [alookup] at h
  | cons kv rest ih =>
    simp only [alookup] at h
    by_cases hk : kv.1 = k
    · rw [if_pos hk] at h
      injection h with h2
      subst h2
      subst hk
      simp
    · simp only [if_neg hk] at h
      exact List.mem_cons_of_mem _ (ih h)

theorem alookup_filter_key {α β : Type} [DecidableEq α] (k : α)
    (p : α × β → Bool) (q : α → Bool) (l : List (α × β))
    (hp : ∀ kv ∈ l, p kv = q kv.1) :
    alookup k (l.filter p) =
      if q k = true then alookup k l else Option.none := by
  induction l with
  | nil => simp [alookup]
  | cons kv rest ih =>
    have hkv : p kv = q kv.1 := hp kv (List.mem_cons_self _ _)
    have hrest : ∀ kv2 ∈ rest, p kv2 = q kv2.1 :=
      fun kv2 h2 => hp kv2 (List.mem_cons_of_mem _ h2)
    by_cases hk : kv.1 = k
    · subst hk
      cases hq : q kv.1 with
      | true => simp [List.filter_cons, hkv, hq, alookup]
      | false => simp [List.filter_cons, hkv, hq, alookup, ih hrest]
    · cases hq : q kv.1 with
      | true => simp [List.filter_cons, hkv, hq, alookup, hk, ih hrest]
      | false => simp [List.filter_cons, hkv, hq, alookup, hk, ih hrest]

/-- Lookup in a Python dict merge `{**a, **b}` prefers `b`. -/
theorem alookup_pyMerge {α β : Type} [DecidableEq α] (k : α)
    (a b : List (α × β)) :
    alookup k (pyMerge a b) = (alookup k b).or (alookup k a) := by
  unfold pyMerge
  rw [alookup_append]
  have h1 : alookup k (a.map (fun kv => (kv.1, (alookup kv.1 b).getD kv.2)))
      = (alookup k a).map (fun v => (alookup k b).getD v) :=
    alookup_map_key k (fun key v => (alookup key b).getD v) a
  have h2 : alookup k (b.filter (fun kv => (alookup kv.1 a).isNone))
      = if (alookup k a).isNone = true then alookup k b else Option.none :=
    alookup_filter_key k _ (fun key => (alookup key a).isNone) b
      (fun _ _ => rfl)
  rw [h1, h2]
  cases ha : alookup k a with
  | none => cases hb : alookup k b <;> simp
  | some va => cases hb : alookup k b <;> simp

/-!
## Children-grouping lemmas
-/

theorem pairsOf_map_singleton (g : Props → Option String)
    (l : List (String × Props)) :
    pairsOf (l.map (fun kv => (kv.1, [g kv.2]))) =
      l.map (fun kv => (kv.1, g kv.2)) := by
  induction l with
  | nil => rfl
  | cons kv rest ih => simp [pairsOf, List.flatMap] at ih ⊢; simp [ih]

theorem addChild_lookupD {acc : List (Option String × List String)}
    {p : Option String} {c : String} (k : Option String) :
    (alookup k (addChild acc p c)).getD [] =
      if k = p then (alookup p acc).getD [] ++ [c]
      else (alookup k acc).getD [] := by
  unfold addChild
  by_cases hmem : acc.any (fun kv => kv.1 = p)
  · simp only [hmem, if_pos]
    have hmap : acc.map (fun kv => if kv.1 = p then (kv.1, kv.2 ++ [c]) else kv)
        = acc.map (fun kv => (kv.1, if kv.1 = p then kv.2 ++ [c] else kv.2)) := by
      apply List.map_congr_left
      intro kv _
      by_cases h : kv.1 = p <;> simp [h]
    rw [hmap,
      alookup_map_key k (fun key v => if key = p then v ++ [c] else v) acc]
    by_cases hk : k = p
    · subst hk
      rcases hsome : alookup k acc with _ | v
      · exfalso
        rw [List.any_eq_true] at hmem
        obtain ⟨kv, hkv, hq⟩ := hmem
        rw [decide_eq_true_eq] at hq
        rw [alookup_eq_none_iff] at hsome
        exact hsome (hq ▸ List.mem_map_of_mem (fun kv => kv.1) hkv)
      · simp [hsome]
    · rcases hsome : alookup k acc with _ | v <;> simp [hsome, hk]
  · simp only [hmem, if_neg, Bool.not_eq_true]
    rw [alookup_append]
    have hnone : alookup p acc = Option.none := by
      rw [alookup_eq_none_iff]
      intro hk
      apply hmem
      rw [List.any_eq_true]
      obtain ⟨kv, hkv, hq⟩ := List.mem_map.mp hk
      exact ⟨kv, hkv, by simp [hq]⟩
    by_cases hk : k = p
    · subst hk; simp [hnone, alookup]
    · have hpk : ¬ p = k := fun hh => hk hh.symm
      rcases hsome : alookup k acc with _ | v <;>
        simp [hsome, alookup, hk, hpk, hnone]

theorem foldl_addChild_lookupD (pairs : List (String × Option String))
    (acc : List (Option String × List String)) (k : Option String) :
    (alookup k (pairs.foldl (fun acc2 cp => addChild acc2 cp.2 cp.1) acc)).getD []
      = (alookup k acc).getD []
        ++ (pairs.filter (fun cp => decide (cp.2 = k))).map (fun cp => cp.1) := by
  induction pairs generalizing acc with
  | nil => simp
  | cons cp rest ih =>
    simp only [List.foldl_cons]
    rw [ih]
    rw [addChild_lookupD k]
    by_cases hk : k = cp.2
    · subst hk
      simp [List.filter_cons, List.append_assoc]
    · have h2 : ¬ cp.2 = k := fun h => hk h.symm
      simp [List.filter_cons, hk, h2]

theorem buildChildren_lookupD (ps : List (String × List (Option String)))
    (k : Option String) :
    (alookup k (buildChildren ps)).getD [] =
      ((pairsOf ps).filter (fun cp => decide (cp.2 = k))).map
        (fun cp => cp.1) := by
  unfold buildChildren
  rw [foldl_addChild_lookupD (pairsOf ps) [] k]
  simp [alookup]

/-- `addChild` adds exactly the key `p` to the table. -/
theorem addChild_alookup_none {acc : List (Option String × List String)}
    {p : Option String} {c : String} (k : Option String) :
    alookup k (addChild acc p c) = Option.none ↔
      alookup k acc = Option.none ∧ ¬ k = p := by
  unfold addChild
  by_cases hmem : acc.any (fun kv => kv.1 = p)
  · rw [if_pos hmem]
    have hmap : acc.map (fun kv => if kv.1 = p then (kv.1, kv.2 ++ [c]) else kv)
        = acc.map (fun kv => (kv.1, if kv.1 = p then kv.2 ++ [c] else kv.2)) := by
      apply List.map_congr_left
      intro kv _
      by_cases h : kv.1 = p <;> simp [h]
    rw [hmap,
      alookup_map_key k (fun key v => if key = p then v ++ [c] else v) acc]
    cases hsome : alookup k acc with
    | none =>
      have hkp : ¬ k = p := by
        intro hk
        subst hk
        rw [List.any_eq_true] at hmem
        obtain ⟨kv, hkv, hq⟩ := hmem
        rw [decide_eq_true_eq] at hq
        rw [alookup_eq_none_iff] at hsome
        exact hsome (hq ▸ List.mem_map_of_mem (fun kv => kv.1) hkv)
      simp [hkp]
    | some v => simp
  · rw [if_neg hmem, alookup_append]
    cases hsome : alookup k acc with
    | none =>
      simp only [alookup]
      by_cases hk : p = k
      · simp [hk]
      · have hkp : ¬ k = p := fun hh => hk hh.symm
        simp [if_neg hk, hkp]
    | some v => simp

theorem foldl_addChild_keys {pairs : List (String × Option String)}
    {acc : List (Option String × List String)} {k : Option String}
    (h : alookup k (pairs.foldl (fun acc2 cp => addChild acc2 cp.2 cp.1) acc)
        ≠ Option.none) :
    alookup k acc ≠ Option.none ∨ k ∈ pairs.map (fun cp => cp.2) := by
  induction pairs generalizing acc with
  | nil => exact Or.inl h
  | cons cp rest ih =>
    simp only [List.foldl_cons] at h
    rcases ih h with h2 | h2
    · by_cases hk : k = cp.2
      · exact Or.inr (by simp [hk])
      · left
        intro hnone
        exact h2 ((addChild_alookup_none k).mpr ⟨hnone, hk⟩)
    · simp only [List.map_cons]
      exact Or.inr (List.mem_cons_of_mem _ h2)

/-- A key absent from the visited parent values is absent from the
children table the loop builds. -/
theorem buildChildren_none_of_notMem {ps : List (String × List (Option String))}
    {k : Option String} (h : k ∉ (pairsOf ps).map (fun cp => cp.2)) :
    alookup k (buildChildren ps) = Option.none := by
  by_contra hne
  rcases foldl_addChild_keys hne with h2 | h2
  · exact h2 rfl
  · exact h h2

/-!
## The `ancestors` recursion under the acyclicity invariant

The source terminates the recursion `[parent] + self.ancestors(parent)`
only because the schema's `is_a` relation is a forest.  Here the
invariant is stated on the fuelled embedding — the self-plus-ancestors
chain of every recorded name repeats nothing — and shown to imply that
the fuel `ancFuel` is never exhausted, so the fuelled function
satisfies the source's recursion equation.
-/

namespace Toolkit

/-- Acyclicity of the parent relation: the self-plus-ancestors chain of
every name recorded in `_parents` repeats no name.  (A name outside the
table has no parent and an empty chain, so quantifying over the keys
keeps the property decidable without loss.) -/
def Acyclic (T : Toolkit) : Prop :=
  ∀ n ∈ T.parentsD.map (fun kv => kv.1), (n :: T.ancestors n).Nodup

instance (T : Toolkit) : Decidable T.Acyclic := by
  unfold Acyclic
  infer_instance

end Toolkit

theorem parent_some_mem_keys {T : Toolkit} {n p : String}
    (h : T.parent n = some p) :
    n ∈ T.parentsD.map (fun kv => kv.1) := by
  unfold Toolkit.parent at h
  cases hl : alookup n T.parentsD with
  | none => rw [hl] at h; cases h
  | some ps => exact List.mem_map_of_mem (fun kv => kv.1) (alookup_mem hl)

theorem ancAux_length_le (T : Toolkit) (f : Nat) :
    ∀ n, (ancAux T f n).length ≤ f := by
  induction f with
  | zero => intro n; simp [ancAux]
  | succ f ih =>
    intro n
    simp only [ancAux]
    cases hp : T.parent n with
    | none => simp
    | some p => simpa using ih p

/-- Unused fuel is irrelevant: once the recursion stops before the fuel
runs out, more fuel computes the same list. -/
theorem ancAux_stable (T : Toolkit) :
    ∀ (f : Nat) (n : String), (ancAux T f n).length < f →
      ∀ g, f ≤ g → ancAux T g n = ancAux T f n := by
  intro f
  induction f with
  | zero => intro n h; omega
  | succ f ih =>
    intro n h g hg
    cases g with
    | zero => omega
    | succ g2 =>
      simp only [ancAux] at h ⊢
      cases hp : T.parent n with
      | none => simp
      | some p =>
        rw [hp] at h
        simp only [List.length_cons] at h
        show p :: ancAux T g2 p = p :: ancAux T f p
        rw [ih p (by omega) g2 (by omega)]

/-- If the fuel is exhausted, every chain entry but the last is a key
of `_parents` (its parent lookup succeeded). -/
theorem ancAux_exhausted_take (T : Toolkit) :
    ∀ (f : Nat) (n : String), (ancAux T f n).length = f →
      ∀ x ∈ (n :: ancAux T f n).take f, x ∈ T.parentsD.map (fun kv => kv.1) := by
  intro f
  induction f with
  | zero => intro n h x hx; simp at hx
  | succ f ih =>
    intro n h x hx
    simp only [ancAux] at h hx
    cases hp : T.parent n with
    | none => rw [hp] at h; simp at h
    | some p =>
      rw [hp] at h hx
      simp only [List.length_cons] at h
      rw [List.take_succ_cons] at hx
      rcases List.mem_cons.mp hx with h1 | h2
      · subst h1
        exact parent_some_mem_keys hp
      · exact ih p (by omega) x h2

theorem ancAux_length_lt_of_acyclic {T : Toolkit} (hA : T.Acyclic)
    (n : String) : (ancAux T T.ancFuel n).length < T.ancFuel := by
  by_contra hge
  have hlen : (ancAux T T.ancFuel n).length = T.ancFuel :=
    le_antisymm (ancAux_length_le T _ n) (not_lt.mp hge)
  have hfp : ∃ p, T.parent n = some p := by
    have h1 : T.ancFuel = T.parentsD.length + 1 := rfl
    rcases hp : T.parent n with _ | p
    · exfalso
      have : ancAux T T.ancFuel n = [] := by
        rw [h1]
        simp [ancAux, hp]
      rw [this] at hlen
      simp [h1] at hlen
    · exact ⟨p, rfl⟩
  obtain ⟨p, hp⟩ := hfp
  have hnK : n ∈ T.parentsD.map (fun kv => kv.1) := parent_some_mem_keys hp
  have hnodup : (n :: T.ancestors n).Nodup := hA n hnK
  have htake_nodup : ((n :: T.ancestors n).take T.ancFuel).Nodup :=
    hnodup.sublist (List.take_sublist _ _)
  have hsub : ∀ x ∈ (n :: T.ancestors n).take T.ancFuel,
      x ∈ T.parentsD.map (fun kv => kv.1) :=
    ancAux_exhausted_take T _ n hlen
  have hlen_take : ((n :: T.ancestors n).take T.ancFuel).length = T.ancFuel := by
    rw [List.length_take, List.length_cons]
    unfold Toolkit.ancestors at hlen ⊢
    omega
  have hcard1 : ((n :: T.ancestors n).take T.ancFuel).toFinset.card
      = T.ancFuel := by
    rw [List.toFinset_card_of_nodup htake_nodup, hlen_take]
  have hcard2 : ((n :: T.ancestors n).take T.ancFuel).toFinset
      ⊆ (T.parentsD.map (fun kv => kv.1)).toFinset := by
    intro x hx
    rw [List.mem_toFinset] at hx ⊢
    exact hsub x hx
  have hcard3 : (T.parentsD.map (fun kv => kv.1)).toFinset.card
      ≤ T.parentsD.length := by
    calc (T.parentsD.map (fun kv => kv.1)).toFinset.card
        ≤ (T.parentsD.map (fun kv => kv.1)).length := List.toFinset_card_le _
      _ = T.parentsD.length := List.length_map _ _
  have h4 := Finset.card_le_card hcard2
  rw [hcard1] at h4
  have h5 : T.ancFuel = T.parentsD.length + 1 := rfl
  omega

/-- The source's recursion equation for `ancestors`, valid under the
acyclicity invariant the source relies upon. -/
theorem ancestors_unfold {T : Toolkit} (hA : T.Acyclic) (n : String) :
    T.ancestors n =
      match T.parent n with
      | Option.none => []
      | some p => p :: T.ancestors p := by
  have hstep : ancAux T (T.ancFuel + 1) n
      = match T.parent n with
        | Option.none => []
        | some p => p :: ancAux T T.ancFuel p := rfl
  have hlt : (ancAux T T.ancFuel n).length < T.ancFuel :=
    ancAux_length_lt_of_acyclic hA n
  have hstable : ancAux T (T.ancFuel + 1) n = ancAux T T.ancFuel n :=
    ancAux_stable T T.ancFuel n hlt (T.ancFuel + 1) (by omega)
  unfold Toolkit.ancestors
  rw [← hstable, hstep]

theorem not_mem_ancestors_self {T : Toolkit} (hA : T.Acyclic) (x : String) :
    x ∉ T.ancestors x := by
  intro hx
  rcases hp : T.parent x with _ | p
  · have h0 : T.ancestors x = [] := by rw [ancestors_unfold hA x, hp]
    rw [h0] at hx
    cases hx
  · have hxK : x ∈ T.parentsD.map (fun kv => kv.1) := parent_some_mem_keys hp
    have hnd := hA x hxK
    rw [List.nodup_cons] at hnd
    exact hnd.1 hx

theorem ancestors_suffix_aux {T : Toolkit} (hA : T.Acyclic) :
    ∀ (N : Nat) (x y : String), (T.ancestors x).length ≤ N →
      y ∈ T.ancestors x →
      ∃ l, T.ancestors x = l ++ y :: T.ancestors y := by
  intro N
  induction N with
  | zero =>
    intro x y hlen hy
    have h0 : T.ancestors x = [] :=
      List.eq_nil_of_length_eq_zero (Nat.le_zero.mp hlen)
    rw [h0] at hy
    cases hy
  | succ N ih =>
    intro x y hlen hy
    rcases hp : T.parent x with _ | p
    · have h0 : T.ancestors x = [] := by rw [ancestors_unfold hA x, hp]
      rw [h0] at hy
      cases hy
    · have h0 : T.ancestors x = p :: T.ancestors p := by
        rw [ancestors_unfold hA x, hp]
      rcases List.mem_cons.mp (h0 ▸ hy) with h1 | h2
      · subst h1
        exact ⟨[], by rw [h0, List.nil_append]⟩
      · have hlen2 : (T.ancestors p).length ≤ N := by
          rw [h0] at hlen
          simp only [List.length_cons] at hlen
          omega
        obtain ⟨l, hl⟩ := ih p y hlen2 h2
        exact ⟨p :: l, by rw [h0, hl, List.cons_append]⟩

/-- In a forest, the ancestor chain of an ancestor is a suffix of the
original chain. -/
theorem ancestors_suffix_of_mem {T : Toolkit} (hA : T.Acyclic)
    {x y : String} (hy : y ∈ T.ancestors x) :
    ∃ l, T.ancestors x = l ++ y :: T.ancestors y :=
  ancestors_suffix_aux hA (T.ancestors x).length x y (le_refl _) hy

/-- The strict-ancestor relation is asymmetric under acyclicity. -/
theorem ancestors_asymm {T : Toolkit} (hA : T.Acyclic) {x y : String}
    (hxy : y ∈ T.ancestors x) (hyx : x ∈ T.ancestors y) : False := by
  obtain ⟨l, hl⟩ := ancestors_suffix_of_mem hA hxy
  apply not_mem_ancestors_self hA x
  rw [hl]
  exact List.mem_append_right l (List.mem_cons_of_mem y hyx)

theorem chain_total_aux {T : Toolkit} (hA : T.Acyclic) :
    ∀ (N : Nat) (w u v : String), (T.ancestors w).length ≤ N →
      u ∈ T.chain w → v ∈ T.chain w →
      u = v ∨ u ∈ T.ancestors v ∨ v ∈ T.ancestors u := by
  intro N
  induction N with
  | zero =>
    intro w u v hlen hu hv
    have h0 : T.ancestors w = [] :=
      List.eq_nil_of_length_eq_zero (Nat.le_zero.mp hlen)
    unfold Toolkit.chain at hu hv
    rw [h0] at hu hv
    simp only [List.mem_singleton] at hu hv
    left
    rw [hu, hv]
  | succ N ih =>
    intro w u v hlen hu hv
    unfold Toolkit.chain at hu hv
    rcases List.mem_cons.mp hu with h1 | h2
    · rcases List.mem_cons.mp hv with h3 | h4
      · left; rw [h1, h3]
      · right; right; rw [h1]; exact h4
    · rcases List.mem_cons.mp hv with h3 | h4
      · right; left; rw [h3]; exact h2
      · rcases hp : T.parent w with _ | p
        · have h0 : T.ancestors w = [] := by rw [ancestors_unfold hA w, hp]
          rw [h0] at h2
          cases h2
        · have h0 : T.ancestors w = p :: T.ancestors p := by
            rw [ancestors_unfold hA w, hp]
          have hlen2 : (T.ancestors p).length ≤ N := by
            rw [h0] at hlen
            simp only [List.length_cons] at hlen
            omega
          rw [h0] at h2 h4
          exact ih p u v hlen2 h2 h4

/-- Total comparability of two members of one self-plus-ancestors
chain. -/
theorem chain_total {T : Toolkit} (hA : T.Acyclic) {w u v : String}
    (hu : u ∈ T.chain w) (hv : v ∈ T.chain w) :
    u = v ∨ u ∈ T.ancestors v ∨ v ∈ T.ancestors u :=
  chain_total_aux hA (T.ancestors w).length w u v (le_refl _) hu hv

theorem head_some_mem {α : Type} {l : List α} {y : α}
    (h : l.head? = some y) : y ∈ l := by
  cases l with
  | nil => cases h
  | cons a l2 =>
    simp only [List.head?] at h
    injection h with h2
    rw [← h2]
    exact List.mem_cons_self a l2

theorem chain_filter_head_min {T : Toolkit} (hA : T.Acyclic) :
    ∀ (N : Nat) (w : String) (P : String → Bool) (y : String),
      (T.ancestors w).length ≤ N →
      ((T.chain w).filter P).head? = some y →
      ∀ z ∈ T.chain w, P z = true → z = y ∨ z ∈ T.ancestors y := by
  intro N
  induction N with
  | zero =>
    intro w P y hlen hhead z hz hPz
    have h0 : T.ancestors w = [] :=
      List.eq_nil_of_length_eq_zero (Nat.le_zero.mp hlen)
    unfold Toolkit.chain at hhead hz
    rw [h0] at hhead hz
    simp only [List.mem_singleton] at hz
    subst hz
    rw [List.filter_cons, hPz] at hhead
    simp only [List.filter_nil, List.head?] at hhead
    injection hhead with h2
    exact Or.inl h2
  | succ N ih =>
    intro w P y hlen hhead z hz hPz
    unfold Toolkit.chain at hhead hz
    cases hPw : P w with
    | true =>
      rw [List.filter_cons, hPw] at hhead
      simp only [if_pos, List.head?] at hhead
      injection hhead with h2
      rcases List.mem_cons.mp hz with h3 | h4
      · exact Or.inl (h3.trans h2)
      · right
        rw [← h2]
        exact h4
    | false =>
      rw [List.filter_cons, hPw] at hhead
      simp only [Bool.false_eq_true, if_neg, not_false_iff] at hhead
      rcases hp : T.parent w with _ | p
      · have h0 : T.ancestors w = [] := by rw [ancestors_unfold hA w, hp]
        rw [h0] at hhead
        cases hhead
      · have h0 : T.ancestors w = p :: T.ancestors p := by
          rw [ancestors_unfold hA w, hp]
        have hlen2 : (T.ancestors p).length ≤ N := by
          rw [h0] at hlen
          simp only [List.length_cons] at hlen
          omega
        have hhead2 : ((T.chain p).filter P).head? = some y := by
          unfold Toolkit.chain
          rw [← h0]
          exact hhead
        rcases List.mem_cons.mp hz with h3 | h4
        · exfalso
          rw [h3] at hPz
          rw [hPz] at hPw
          cases hPw
        · rw [h0] at h4
          exact ih p P y hlen2 hhead2 z h4 hPz

/-!
## The `get_by_mapping` loop
-/

/-- A successful loop result lies on the seed chain and on every chain
filtered against. -/
theorem gbLoop_some {T : Toolkit} :
    ∀ (ms shared : List String) (r : String),
      gbLoop T ms shared = some r →
      r ∈ shared ∧ ∀ m ∈ ms, r ∈ T.chain m := by
  intro ms
  induction ms with
  | nil =>
    intro shared r h
    simp only [gbLoop] at h
    exact ⟨head_some_mem h, fun m hm => absurd hm (List.not_mem_nil m)⟩
  | cons m rest ih =>
    intro shared r h
    simp only [gbLoop] at h
    by_cases he : (shared.filter (fun a => decide (a ∈ T.chain m))).isEmpty
    · rw [if_pos he] at h
      cases h
    · rw [if_neg he] at h
      obtain ⟨h1, h2⟩ := ih _ r h
      rw [List.mem_filter] at h1
      refine ⟨h1.1, fun m2 hm2 => ?_⟩
      rcases List.mem_cons.mp hm2 with h3 | h4
      · rw [h3]
        exact of_decide_eq_true h1.2
      · exact h2 m2 h4

/-- The loop computes the head of the seed filtered by membership in
every remaining chain: the early exit on an empty intersection agrees
with filtering to the end. -/
theorem gbLoop_eq_filter_head {T : Toolkit} :
    ∀ (ms shared : List String),
      gbLoop T ms shared =
        (shared.filter
          (fun a => decide (∀ m ∈ ms, a ∈ T.chain m))).head? := by
  intro ms
  induction ms with
  | nil =>
    intro shared
    simp [gbLoop]
  | cons m rest ih =>
    intro shared
    have hsplit : shared.filter (fun a => decide (∀ m2 ∈ m :: rest, a ∈ T.chain m2))
        = (shared.filter (fun a => decide (a ∈ T.chain m))).filter
            (fun a => decide (∀ m2 ∈ rest, a ∈ T.chain m2)) := by
      rw [List.filter_filter]
      apply List.filter_congr
      intro a _
      rw [Bool.eq_iff_iff]
      simp only [decide_eq_true_eq, Bool.and_eq_true, List.forall_mem_cons]
      exact and_comm
    simp only [gbLoop]
    by_cases he : (shared.filter (fun a => decide (a ∈ T.chain m))).isEmpty
    · rw [if_pos he, hsplit]
      rw [List.isEmpty_iff] at he
      rw [he]
      rfl
    · rw [if_neg he, ih, hsplit]

/-- `get_by_mapping`, characterised: with a non-empty match list it is
the first entry of the seed chain that lies on every match's chain. -/
theorem get_by_mapping_from_cons {T : Toolkit} (m0 : String)
    (rest : List String) :
    T.get_by_mapping_from (m0 :: rest) =
      ((T.chain m0).filter
        (fun a => decide (∀ m ∈ m0 :: rest, a ∈ T.chain m))).head? := by
  unfold Toolkit.get_by_mapping_from
  have hne : (T.chain m0).isEmpty = false := rfl
  simp only [hne, Bool.false_eq_true, if_neg, not_false_iff]
  rw [gbLoop_eq_filter_head]
  congr 1
  apply List.filter_congr
  intro a ha
  rw [Bool.eq_iff_iff]
  simp only [decide_eq_true_eq, List.forall_mem_cons]
  constructor
  · exact fun h => ⟨ha, h⟩
  · exact fun h => h.2

/-!
## The `descendents` recursion
-/

theorem flatMap_congr_mem {α β : Type} {l : List α} {f g : α → List β}
    (h : ∀ a ∈ l, f a = g a) : l.flatMap f = l.flatMap g := by
  induction l with
  | nil => rfl
  | cons a rest ih =>
    rw [List.flatMap_cons, List.flatMap_cons, h a (List.mem_cons_self a rest),
      ih (fun b hb => h b (List.mem_cons_of_mem a hb))]

theorem descAux_nonkey (T : Toolkit) (f : Nat) (k : Option String)
    (h : alookup k T.childrenD = Option.none) : descAux T f k = [] := by
  cases f with
  | zero => rfl
  | succ f2 => simp [descAux, Toolkit.childrenO, h]

namespace Toolkit

/-- Termination witness for the `descendents` recursion: at every key
of the children table, one more unit of fuel than `descFuel` changes
nothing.  This is the fuelled rendering of the invariant that the child
relation (like the parent relation it inverts) has no cycles reachable
within the table.  Decidable, hence checkable on a concrete schema. -/
def DescStable (T : Toolkit) : Prop :=
  ∀ k ∈ T.childrenD.map (fun kv => kv.1),
    descAux T T.descFuel k = descAux T (T.descFuel + 1) k

instance (T : Toolkit) : Decidable T.DescStable := by
  unfold DescStable
  infer_instance

end Toolkit

theorem descAux_stable_all {T : Toolkit} (hS : T.DescStable) :
    ∀ (j : Nat) (k : Option String),
      descAux T (T.descFuel + j) k = descAux T T.descFuel k := by
  intro j
  induction j with
  | zero => intro k; rfl
  | succ j ih =>
    intro k
    by_cases hk : k ∈ T.childrenD.map (fun kv => kv.1)
    · have h1 : descAux T (T.descFuel + j + 1) k
          = (T.childrenO k).flatMap
              (fun c => c :: descAux T (T.descFuel + j) (some c)) := rfl
      have h2 : descAux T (T.descFuel + 1) k
          = (T.childrenO k).flatMap
              (fun c => c :: descAux T T.descFuel (some c)) := rfl
      calc descAux T (T.descFuel + (j + 1)) k
          = (T.childrenO k).flatMap
              (fun c => c :: descAux T (T.descFuel + j) (some c)) := h1
        _ = (T.childrenO k).flatMap
              (fun c => c :: descAux T T.descFuel (some c)) := by
            apply flatMap_congr_mem
            intro c _
            rw [ih (some c)]
        _ = descAux T (T.descFuel + 1) k := h2.symm
        _ = descAux T T.descFuel k := (hS k hk).symm
    · rw [descAux_nonkey T _ k (alookup_eq_none_iff k T.childrenD |>.mpr hk),
        descAux_nonkey T _ k (alookup_eq_none_iff k T.childrenD |>.mpr hk)]

/-- The source's recursion equation for `descendents`: each child is
listed, immediately followed by its own full descendant list, before
the next sibling. -/
theorem descendents_unfold {T : Toolkit} (hS : T.DescStable) (name : String) :
    T.descendents name =
      (T.children name).flatMap (fun c => c :: T.descendents c) := by
  unfold Toolkit.descendents
  rw [← descAux_stable_all hS 1 (some name)]
  rfl

/-- Level-one membership needs no stability: a child is among the
descendants. -/
theorem mem_descendents_of_mem_children {T : Toolkit} {p c : String}
    (h : c ∈ T.children p) : c ∈ T.descendents p := by
  unfold Toolkit.descendents
  show c ∈ (T.childrenO (some p)).flatMap
    (fun c2 => c2 :: descAux T T.elements.length (some c2))
  rw [List.mem_flatMap]
  exact ⟨c, h, List.mem_cons_self _ _⟩

/-!
## Lookup shapes of the constructed tables
-/

theorem alookup_parentsD (T : Toolkit) (n : String) :
    alookup n T.parentsD =
      (alookup n T.class_parents).or (alookup n T.slot_parents) := by
  unfold Toolkit.parentsD
  exact alookup_pyMerge n T.slot_parents T.class_parents

theorem alookup_childrenD (T : Toolkit) (k : Option String) :
    alookup k T.childrenD =
      (alookup k T.class_children).or (alookup k T.slot_children) := by
  unfold Toolkit.childrenD
  exact alookup_pyMerge k T.slot_children T.class_children

theorem alookup_elements (T : Toolkit) (n : String) :
    alookup n T.elements = (alookup n T.classes).or (alookup n T.slots) := by
  unfold Toolkit.elements
  exact alookup_pyMerge n T.slots T.classes

theorem alookup_slot_parents (T : Toolkit) (n : String) :
    alookup n T.slot_parents = (alookup n T.slots).map (fun pr => [pr.is_a]) := by
  unfold Toolkit.slot_parents
  exact alookup_map_key n (fun _ pr => [pr.is_a]) T.slots

theorem alookup_class_parents (T : Toolkit) (n : String) :
    alookup n T.class_parents = (alookup n T.classes).map (fun pr => [pr.is_a]) := by
  unfold Toolkit.class_parents
  exact alookup_map_key n (fun _ pr => [pr.is_a]) T.classes

theorem pairsOf_slot_parents (T : Toolkit) :
    pairsOf T.slot_parents = T.slots.map (fun kv => (kv.1, kv.2.is_a)) := by
  unfold Toolkit.slot_parents
  exact pairsOf_map_singleton Props.is_a T.slots

theorem pairsOf_class_parents (T : Toolkit) :
    pairsOf T.class_parents = T.classes.map (fun kv => (kv.1, kv.2.is_a)) := by
  unfold Toolkit.class_parents
  exact pairsOf_map_singleton Props.is_a T.classes

theorem mem_buildChildren_group (ps : List (String × List (Option String)))
    (k : Option String) (c : String) :
    c ∈ (alookup k (buildChildren ps)).getD [] ↔ (c, k) ∈ pairsOf ps := by
  rw [buildChildren_lookupD, List.mem_map]
  constructor
  · rintro ⟨cp, hcp, hc⟩
    rw [List.mem_filter] at hcp
    have hk : cp.2 = k := of_decide_eq_true hcp.2
    have hcp2 : cp = (c, k) := by
      cases cp
      simp_all
    rw [← hcp2]
    exact hcp.1
  · intro hmem
    refine ⟨(c, k), List.mem_filter.mpr ⟨hmem, ?_⟩, rfl⟩
    simp

theorem alookup_eq_of_mem_nodup {α β : Type} [DecidableEq α]
    {l : List (α × β)} {k : α} {v : β}
    (hnd : (l.map (fun kv => kv.1)).Nodup) (h : (k, v) ∈ l) :
    alookup k l = some v := by
  induction l with
  | nil => cases h
  | cons kv rest ih =>
    rw [List.map_cons, List.nodup_cons] at hnd
    rcases List.mem_cons.mp h with h1 | h2
    · rw [← h1]
      simp [alookup]
    · have hk : ¬ kv.1 = k := by
        intro he
        apply hnd.1
        rw [he]
        exact List.mem_map_of_mem (fun kv => kv.1) h2
      simp only [alookup, if_neg hk]
      exact ih hnd.2 h2

/-- The values stored in `_parents` are always singleton lists. -/
theorem parentsD_singleton {T : Toolkit} {n : String}
    {ps : List (Option String)} (h : alookup n T.parentsD = some ps) :
    ∃ q, ps = [q] := by
  rw [alookup_parentsD, alookup_class_parents, alookup_slot_parents] at h
  cases hc : alookup n T.classes with
  | some pr =>
    rw [hc] at h
    simp only [Option.map_some', Option.or_some] at h
    injection h with h2
    exact ⟨pr.is_a, h2.symm⟩
  | none =>
    rw [hc] at h
    simp only [Option.map_none', Option.none_or] at h
    cases hs : alookup n T.slots with
    | none => rw [hs] at h; cases h
    | some pr =>
      rw [hs] at h
      simp only [Option.map_some'] at h
      injection h with h2
      exact ⟨pr.is_a, h2.symm⟩

theorem parent_some_lookup {T : Toolkit} {n p : String}
    (h : T.parent n = some p) :
    alookup n T.parentsD = some [some p] := by
  unfold Toolkit.parent at h
  cases hl : alookup n T.parentsD with
  | none => rw [hl] at h; cases h
  | some ps =>
    obtain ⟨q, hq⟩ := parentsD_singleton hl
    subst hq
    rw [hl] at h
    simp only at h
    rw [h]

/-- Shared core of claims C2 and C7: when the slot-side and class-side
parent-value groups are disjoint, the `{**slot_children,
**class_children}` merge loses nothing, and every recorded parent edge
is reflected in the children table. -/
theorem children_inverse_core {T : Toolkit}
    (hdisj : ∀ v ∈ T.slots.map (fun kv => kv.2.is_a),
      v ∉ T.classes.map (fun kv => kv.2.is_a))
    {n : String} {p : Option String}
    (h : alookup n T.parentsD = some [p]) :
    n ∈ T.childrenO p := by
  rw [alookup_parentsD] at h
  unfold Toolkit.childrenO
  rw [alookup_childrenD]
  cases hc : alookup n T.class_parents with
  | some v =>
    rw [hc, Option.or_some] at h
    injection h with h2
    subst h2
    rw [alookup_class_parents] at hc
    cases hcl : alookup n T.classes with
    | none => rw [hcl] at hc; cases hc
    | some pr =>
      rw [hcl] at hc
      simp only [Option.map_some'] at hc
      injection hc with hc2
      have hisa : pr.is_a = p := by injection hc2
      have hpair : (n, p) ∈ pairsOf T.class_parents := by
        rw [pairsOf_class_parents, List.mem_map]
        exact ⟨(n, pr), alookup_mem hcl, by rw [← hisa]⟩
      have hg : n ∈ (alookup p (buildChildren T.class_parents)).getD [] :=
        (mem_buildChildren_group _ p n).mpr hpair
      cases hcc : alookup p (buildChildren T.class_parents) with
      | none =>
        rw [hcc] at hg
        cases hg
      | some g =>
        rw [hcc] at hg
        have hcc2 : alookup p T.class_children = some g := hcc
        rw [hcc2, Option.or_some]
        exact hg
  | none =>
    rw [hc, Option.none_or] at h
    rw [alookup_slot_parents] at h
    cases hsl : alookup n T.slots with
    | none => rw [hsl] at h; cases h
    | some pr =>
      rw [hsl] at h
      simp only [Option.map_some'] at h
      injection h with h2
      have hisa : pr.is_a = p := by injection h2
      have hpair : (n, p) ∈ pairsOf T.slot_parents := by
        rw [pairsOf_slot_parents, List.mem_map]
        exact ⟨(n, pr), alookup_mem hsl, by rw [← hisa]⟩
      have hg : n ∈ (alookup p (buildChildren T.slot_parents)).getD [] :=
        (mem_buildChildren_group _ p n).mpr hpair
      have hpv : p ∈ T.slots.map (fun kv => kv.2.is_a) := by
        rw [List.mem_map]
        exact ⟨(n, pr), alookup_mem hsl, hisa⟩
      have hnone : alookup p T.class_children = Option.none := by
        unfold Toolkit.class_children
        apply buildChildren_none_of_notMem
        rw [pairsOf_class_parents, List.map_map]
        exact hdisj p hpv
      rw [hnone, Option.none_or]
      cases hsc : alookup p (buildChildren T.slot_parents) with
      | none =>
        rw [hsc] at hg
        cases hg
      | some g =>
        rw [hsc] at hg
        have hsc2 : alookup p T.slot_children = some g := hsc
        rw [hsc2]
        exact hg

/-- Shared core of claim C5: with unique keys per category and no name
shared between the categories, a child listed under `p` has recorded
parent `p`. -/
theorem parent_of_child_core {T : Toolkit}
    (hnds : (T.slots.map (fun kv => kv.1)).Nodup)
    (hndc : (T.classes.map (fun kv => kv.1)).Nodup)
    (hdisjname : ∀ k ∈ T.slots.map (fun kv => kv.1),
      k ∉ T.classes.map (fun kv => kv.1))
    {p : String} {c : String} (h : c ∈ T.children p) :
    T.parent c = some p := by
  unfold Toolkit.children Toolkit.childrenO at h
  rw [alookup_childrenD] at h
  unfold Toolkit.parent
  rw [alookup_parentsD, alookup_class_parents, alookup_slot_parents]
  cases hcc : alookup (some p) T.class_children with
  | some g =>
    rw [hcc, Option.or_some] at h
    have hg : c ∈ (alookup (some p) (buildChildren T.class_parents)).getD [] := by
      have hcc2 : alookup (some p) (buildChildren T.class_parents) = some g := hcc
      rw [hcc2]
      exact h
    have hpair := (mem_buildChildren_group T.class_parents (some p) c).mp hg
    rw [pairsOf_class_parents, List.mem_map] at hpair
    obtain ⟨kv, hkv, hkveq⟩ := hpair
    have hc1 : kv.1 = c := congrArg Prod.fst hkveq
    have hc2 : kv.2.is_a = some p := congrArg Prod.snd hkveq
    have hfound : alookup c T.classes = some kv.2 := by
      apply alookup_eq_of_mem_nodup hndc
      rw [← hc1]
      exact hkv
    rw [hfound]
    simp only [Option.map_some', Option.or_some]
    rw [hc2]
  | none =>
    rw [hcc, Option.none_or] at h
    have hg : c ∈ (alookup (some p) (buildChildren T.slot_parents)).getD [] := by
      cases hsc : alookup (some p) (buildChildren T.slot_parents) with
      | none =>
        have hsc2 : alookup (some p) T.slot_children = Option.none := hsc
        rw [hsc2] at h
        cases h
      | some g =>
        have hsc2 : alookup (some p) T.slot_children = some g := hsc
        rw [hsc2] at h
        exact h
    have hpair := (mem_buildChildren_group T.slot_parents (some p) c).mp hg
    rw [pairsOf_slot_parents, List.mem_map] at hpair
    obtain ⟨kv, hkv, hkveq⟩ := hpair
    have hc1 : kv.1 = c := congrArg Prod.fst hkveq
    have hc2 : kv.2.is_a = some p := congrArg Prod.snd hkveq
    have hfound : alookup c T.slots = some kv.2 := by
      apply alookup_eq_of_mem_nodup hnds
      rw [← hc1]
      exact hkv
    have hnc : alookup c T.classes = Option.none := by
      rw [alookup_eq_none_iff]
      apply hdisjname
      rw [← hc1]
      exact List.mem_map_of_mem (fun kv => kv.1) hkv
    rw [hfound, hnc]
    simp only [Option.map_some', Option.map_none', Option.none_or]
    rw [hc2]

/-!
## Claim theorems

Concrete auxiliary toolkits used by counterexamples and witnesses.
-/

/-- Two singleton categories, both roots: the merged children table
keeps only the class root group. -/
def tkTwoRoots : Toolkit :=
  ⟨[("a", ⟨Option.none, [], []⟩)], [("b", ⟨Option.none, [], []⟩)]⟩

/-- A name present in both categories with different parents. -/
def tkShadow : Toolkit :=
  ⟨[("p", ⟨Option.none, [], []⟩), ("c", ⟨some "p", [], []⟩)],
   [("c", ⟨some "q", [], []⟩), ("q", ⟨Option.none, [], []⟩)]⟩

/-- A slot child of `p` while `p` is also a parent on the class side. -/
def tkCrossParent : Toolkit :=
  ⟨[("x", ⟨some "p", [], []⟩), ("p", ⟨Option.none, [], []⟩)],
   [("y", ⟨some "p", [], []⟩)]⟩

/-- The toy slots alone (no class category): category-disjoint by
construction. -/
def tkSlotsOnly : Toolkit :=
  ⟨toySlots, []⟩

/-- A name colliding across categories with distinct properties. -/
def tkGene : Toolkit :=
  ⟨[("gene", ⟨Option.none, ["s"], []⟩)],
   [("gene", ⟨some "named thing", ["t"], []⟩)]⟩

/-- Claim C2, counterexample: in `tkTwoRoots` the recorded parent of
the slot `"a"` is the no-parent marker, yet `"a"` is missing from the
queryable no-parent children group, because `{**slot_children,
**class_children}` replaces the slot root group by the class root
group. -/
theorem C2_counterexample :
    alookup "a" tkTwoRoots.parentsD = some [Option.none] ∧
    "a" ∉ tkTwoRoots.childrenO Option.none := by
  constructor
  · decide
  · decide

/-- Claim C2, amended: the children table inverts the parent table on
every element — of either category — provided no parent value (the
no-parent marker included) is recorded in both categories; without that
proviso the class-side group overwrites the slot-side group. -/
theorem C2_children_exact_inverse (T : Toolkit)
    (hdisj : ∀ v ∈ T.slots.map (fun kv => kv.2.is_a),
      v ∉ T.classes.map (fun kv => kv.2.is_a))
    (n : String) (p : Option String)
    (h : alookup n T.parentsD = some [p]) :
    n ∈ T.childrenO p :=
  children_inverse_core hdisj h

/-- Witness for C2 (amended) on a concrete schema. -/
theorem C2_children_exact_inverse_witness :
    "causes" ∈ tkSlotsOnly.childrenO (some "contributes to") :=
  C2_children_exact_inverse tkSlotsOnly (by decide) "causes"
    (some "contributes to") (by decide)

/-- Claim C5, counterexample: in `tkShadow`, `"c"` is listed among the
children of `"p"` (from its slot entry) but its recorded parent is the
class entry's `"q"`. -/
theorem C5_counterexample :
    "c" ∈ tkShadow.children "p" ∧ tkShadow.parent "c" ≠ some "p" := by
  constructor
  · decide
  · decide

/-- Claim C5, amended: `children_of` and `parent_of` are mutual
inverses provided each category has unique names and no name occurs in
both categories (the spec's own uniqueness invariant); a cross-category
name collision can point a listed child at the other category's
parent. -/
theorem C5_parent_of_child (T : Toolkit)
    (hnds : (T.slots.map (fun kv => kv.1)).Nodup)
    (hndc : (T.classes.map (fun kv => kv.1)).Nodup)
    (hdisjname : ∀ k ∈ T.slots.map (fun kv => kv.1),
      k ∉ T.classes.map (fun kv => kv.1))
    (p c : String) (h : c ∈ T.children p) :
    T.parent c = some p :=
  parent_of_child_core hnds hndc hdisjname h

/-- Witness for C5 (amended) on the toy schema. -/
theorem C5_parent_of_child_witness :
    toy.parent "regulates" = some "affects" :=
  C5_parent_of_child toy (by decide) (by decide) (by decide)
    "affects" "regulates" (by decide)

/-- Claim C9: when the same name occurs in both categories, the merged
element table and the merged parent table both keep the later (classes)
entry, silently overwriting the slots entry. -/
theorem C9_later_category_wins (T : Toolkit) (n : String) (pr : Props)
    (hc : alookup n T.classes = some pr)
    (hs : n ∈ T.slots.map (fun kv => kv.1)) :
    T.get_element n = some pr ∧ T.parent n = pr.is_a := by
  constructor
  · unfold Toolkit.get_element
    rw [alookup_elements, hc, Option.or_some]
  · unfold Toolkit.parent
    rw [alookup_parentsD, alookup_class_parents, hc]
    simp only [Option.map_some', Option.or_some]

/-- Witness for C9 on a concrete collision. -/
theorem C9_later_category_wins_witness :
    tkGene.get_element "gene" = some ⟨some "named thing", ["t"], []⟩ ∧
    tkGene.parent "gene" = some "named thing" :=
  C9_later_category_wins tkGene "gene" ⟨some "named thing", ["t"], []⟩
    (by decide) (by decide)

/-- Claim C7, counterexample: in `tkCrossParent` the parent of `"x"`
is `"p"`, but `"x"` is not among the descendants of `"p"`, because the
class-side children group for `"p"` overwrote the slot-side group. -/
theorem C7_counterexample :
    tkCrossParent.parent "x" = some "p" ∧
    "x" ∉ tkCrossParent.descendents "p" := by
  constructor
  · decide
  · decide

/-- Claim C7, amended: provided no parent value is recorded in both
categories, every name with a parent occurs among that parent's
descendants; and (under the terminating-recursion invariant) the
descendant list is the pre-order flattening: each child immediately
followed by its own full descendant list, before the next sibling. -/
theorem C7_descendents (T : Toolkit)
    (hdisj : ∀ v ∈ T.slots.map (fun kv => kv.2.is_a),
      v ∉ T.classes.map (fun kv => kv.2.is_a))
    (hS : T.DescStable) :
    (∀ name p, T.parent name = some p → name ∈ T.descendents p) ∧
    (∀ name, T.descendents name =
      (T.children name).flatMap (fun c => c :: T.descendents c)) := by
  constructor
  · intro name p hp
    have h1 : alookup name T.parentsD = some [some p] := parent_some_lookup hp
    have h2 : name ∈ T.childrenO (some p) := children_inverse_core hdisj h1
    exact mem_descendents_of_mem_children h2
  · exact descendents_unfold hS

/-- Witness for C7 (amended) on a concrete schema. -/
theorem C7_descendents_witness :
    "causes" ∈ tkSlotsOnly.descendents "contributes to" :=
  (C7_descendents tkSlotsOnly (by decide) (by decide)).1 "causes"
    "contributes to" (by decide)

/-- Claim C6: `ancestors` is the nearest-first parent chain — assuming
the parent relation is acyclic, an element with no parent has no
ancestors, the ancestor list of an element with parent `p` is `p`
followed by the ancestors of `p`, and in particular the first entry of
a non-empty ancestor list is the parent. -/
theorem C6_ancestors_nearest_first (T : Toolkit) (hA : T.Acyclic) :
    (∀ name, T.parent name = Option.none → T.ancestors name = []) ∧
    (∀ name p, T.parent name = some p →
      T.ancestors name = p :: T.ancestors p) ∧
    (∀ name, T.ancestors name ≠ [] →
      (T.ancestors name).head? = T.parent name) := by
  have h1 : ∀ name, T.parent name = Option.none → T.ancestors name = [] := by
    intro name hp
    rw [ancestors_unfold hA name, hp]
  have h2 : ∀ name p, T.parent name = some p →
      T.ancestors name = p :: T.ancestors p := by
    intro name p hp
    rw [ancestors_unfold hA name, hp]
  refine ⟨h1, h2, ?_⟩
  intro name hne
  cases hp : T.parent name with
  | none => exact absurd (h1 name hp) hne
  | some p =>
    rw [h2 name p hp]
    rfl

/-- Witness for C6 on the toy schema. -/
theorem C6_ancestors_nearest_first_witness :
    toy.ancestors "causes" = "contributes to" :: toy.ancestors "contributes to" :=
  (C6_ancestors_nearest_first toy (by decide)).2.1 "causes"
    "contributes to" (by decide)

/-- A successful mapping resolution lies on every matched element's
self-plus-ancestors chain. -/
theorem get_by_mapping_from_some {T : Toolkit} {ms : List String}
    {r : String} (h : T.get_by_mapping_from ms = some r) :
    ∀ e ∈ ms, r ∈ T.chain e := by
  cases ms with
  | nil =>
    simp only [Toolkit.get_by_mapping_from] at h
    cases h
  | cons m0 rest =>
    have h2 : gbLoop T rest (T.chain m0) = some r := by
      simpa [Toolkit.get_by_mapping_from, Toolkit.chain] using h
    obtain ⟨h1, h3⟩ := gbLoop_some rest (T.chain m0) r h2
    intro e he
    rcases List.mem_cons.mp he with h4 | h4
    · rw [h4]
      exact h1
    · exact h3 e h4

/-- Claim C1: if `get_by_mapping` returns a name, that name is an
ancestor-or-self of every element returned by `get_all_by_mapping` for
the same identifier. -/
theorem C1_result_common_ancestor (T : Toolkit) (id r : String)
    (h : T.get_by_mapping id = some r) :
    ∀ e ∈ T.get_all_by_mapping id, r = e ∨ r ∈ T.ancestors e := by
  unfold Toolkit.get_by_mapping at h
  intro e he
  have hc : r ∈ T.chain e := get_by_mapping_from_some h e he
  unfold Toolkit.chain at hc
  rcases List.mem_cons.mp hc with h1 | h2
  · exact Or.inl h1
  · exact Or.inr h2

/-- Witness for C1 on the toy schema: probe2 resolves to `affects`,
an ancestor of the matched element
`negatively regulates, process to process`. -/
theorem C1_result_common_ancestor_witness :
    "affects" = "negatively regulates, process to process" ∨
    "affects" ∈ toy.ancestors "negatively regulates, process to process" :=
  C1_result_common_ancestor toy "biolink:probe2" "affects" (by decide)
    "negatively regulates, process to process" (by decide)

/-- Claim C8: `get_by_mapping` returns the absent value exactly when
either no element matches the identifier, or the matched elements share
no common ancestor-or-self; otherwise it returns a name. -/
theorem C8_none_iff_no_common (T : Toolkit) (id : String) :
    T.get_by_mapping id = Option.none ↔
      (T.get_all_by_mapping id = [] ∨
        ¬ ∃ x, ∀ m ∈ T.get_all_by_mapping id, x ∈ T.chain m) := by
  unfold Toolkit.get_by_mapping
  cases hms : T.get_all_by_mapping id with
  | nil =>
    simp [Toolkit.get_by_mapping_from]
  | cons m0 rest =>
    rw [get_by_mapping_from_cons]
    constructor
    · intro h
      right
      rw [List.head?_eq_none_iff] at h
      rintro ⟨x, hx⟩
      have hx0 : x ∈ T.chain m0 := hx m0 (List.mem_cons_self m0 rest)
      have hmem : x ∈ (T.chain m0).filter
          (fun a => decide (∀ m ∈ m0 :: rest, a ∈ T.chain m)) :=
        List.mem_filter.mpr ⟨hx0, decide_eq_true (hx)⟩
      rw [h] at hmem
      cases hmem
    · intro h
      rcases h with h | h
      · cases h
      · rw [List.head?_eq_none_iff, List.filter_eq_nil_iff]
        intro a _
        rw [Bool.not_eq_true, decide_eq_false_iff_not]
        intro hall
        exact h ⟨a, hall⟩

/-- Claim C3, counterexample: on the toy taxonomy `probe3` does not
resolve to the absent value — the worked example's two paths both pass
through `regulates`, so the four matched elements do share
ancestors. -/
theorem C3_counterexample :
    ¬ (toy.get_by_mapping "biolink:probe3" = Option.none) := by decide

/-- Claim C3, amended: `resolve_mapping("probe3")` is `regulates`, the
most distal common ancestor-or-self of the four matched elements. -/
theorem C3_probe3_resolves_to_regulates :
    toy.get_by_mapping "biolink:probe3" = some "regulates" := by decide

/-- The first chain entry passing a filter is an ancestor-or-self of
every chain entry passing it. -/
theorem chain_filter_first {T : Toolkit} (hA : T.Acyclic)
    {w : String} {P : String → Bool} {y : String}
    (hhead : ((T.chain w).filter P).head? = some y) :
    ∀ z ∈ T.chain w, P z = true → z = y ∨ z ∈ T.ancestors y :=
  chain_filter_head_min hA (T.ancestors w).length w P y (le_refl _) hhead

/-- Core of claim C10: the resolution loop computes the same optional
name from any two enumerations of the same matched-element set. -/
theorem get_by_mapping_from_mem_invariant {T : Toolkit} (hA : T.Acyclic)
    {ms1 ms2 : List String} (hmem : ∀ x, x ∈ ms1 ↔ x ∈ ms2) :
    T.get_by_mapping_from ms1 = T.get_by_mapping_from ms2 := by
  cases ms1 with
  | nil =>
    cases ms2 with
    | nil => rfl
    | cons b rest2 =>
      exact absurd ((hmem b).mpr (List.mem_cons_self b rest2))
        (List.not_mem_nil b)
  | cons a rest1 =>
    cases ms2 with
    | nil =>
      exact absurd ((hmem a).mp (List.mem_cons_self a rest1))
        (List.not_mem_nil a)
    | cons b rest2 =>
      rw [get_by_mapping_from_cons, get_by_mapping_from_cons]
      have htrans : ∀ x, (∀ m ∈ a :: rest1, x ∈ T.chain m) ↔
          (∀ m ∈ b :: rest2, x ∈ T.chain m) := by
        intro x
        constructor
        · intro h m hm
          exact h m ((hmem m).mpr hm)
        · intro h m hm
          exact h m ((hmem m).mp hm)
      cases hF1 : ((T.chain a).filter
          (fun x => decide (∀ m ∈ a :: rest1, x ∈ T.chain m))).head? with
      | none =>
        cases hF2 : ((T.chain b).filter
            (fun x => decide (∀ m ∈ b :: rest2, x ∈ T.chain m))).head? with
        | none => rfl
        | some y2 =>
          exfalso
          have hy2 := head_some_mem hF2
          rw [List.mem_filter] at hy2
          have hcomm2 : ∀ m ∈ b :: rest2, y2 ∈ T.chain m :=
            of_decide_eq_true hy2.2
          have hcomm1 : ∀ m ∈ a :: rest1, y2 ∈ T.chain m :=
            (htrans y2).mpr hcomm2
          have hmem1 : y2 ∈ (T.chain a).filter
              (fun x => decide (∀ m ∈ a :: rest1, x ∈ T.chain m)) :=
            List.mem_filter.mpr
              ⟨hcomm1 a (List.mem_cons_self a rest1), decide_eq_true hcomm1⟩
          rw [List.head?_eq_none_iff] at hF1
          rw [hF1] at hmem1
          cases hmem1
      | some y1 =>
        cases hF2 : ((T.chain b).filter
            (fun x => decide (∀ m ∈ b :: rest2, x ∈ T.chain m))).head? with
        | none =>
          exfalso
          have hy1 := head_some_mem hF1
          rw [List.mem_filter] at hy1
          have hcomm1 : ∀ m ∈ a :: rest1, y1 ∈ T.chain m :=
            of_decide_eq_true hy1.2
          have hcomm2 : ∀ m ∈ b :: rest2, y1 ∈ T.chain m :=
            (htrans y1).mp hcomm1
          have hmem2 : y1 ∈ (T.chain b).filter
              (fun x => decide (∀ m ∈ b :: rest2, x ∈ T.chain m)) :=
            List.mem_filter.mpr
              ⟨hcomm2 b (List.mem_cons_self b rest2), decide_eq_true hcomm2⟩
          rw [List.head?_eq_none_iff] at hF2
          rw [hF2] at hmem2
          cases hmem2
        | some y2 =>
          have hy1 := head_some_mem hF1
          rw [List.mem_filter] at hy1
          have hc1 : ∀ m ∈ a :: rest1, y1 ∈ T.chain m :=
            of_decide_eq_true hy1.2
          have hy2 := head_some_mem hF2
          rw [List.mem_filter] at hy2
          have hc2 : ∀ m ∈ b :: rest2, y2 ∈ T.chain m :=
            of_decide_eq_true hy2.2
          have hc2in1 : ∀ m ∈ a :: rest1, y2 ∈ T.chain m :=
            (htrans y2).mpr hc2
          have hc1in2 : ∀ m ∈ b :: rest2, y1 ∈ T.chain m :=
            (htrans y1).mp hc1
          have hmin1 := chain_filter_first hA hF1 y2
            (hc2in1 a (List.mem_cons_self a rest1)) (decide_eq_true hc2in1)
          have hmin2 := chain_filter_first hA hF2 y1
            (hc1in2 b (List.mem_cons_self b rest2)) (decide_eq_true hc1in2)
          rcases hmin1 with h1 | h1
          · rw [h1]
          · rcases hmin2 with h2 | h2
            · rw [h2]
            · exact (ancestors_asymm hA h1 h2).elim

/-- Claim C10 (implicit): the result of `get_by_mapping` does not
depend on the enumeration order of the matched-element set: any two
sequences carrying the members of `get_all_by_mapping(identifier)`
drive the intersection loop to the same optional name, under the
acyclicity invariant. -/
theorem C10_enumeration_order_irrelevant (T : Toolkit) (id : String)
    (hA : T.Acyclic) (ms1 ms2 : List String)
    (h1 : ∀ x, x ∈ ms1 ↔ x ∈ T.get_all_by_mapping id)
    (h2 : ∀ x, x ∈ ms2 ↔ x ∈ T.get_all_by_mapping id) :
    T.get_by_mapping_from ms1 = T.get_by_mapping_from ms2 :=
  get_by_mapping_from_mem_invariant hA
    (fun x => (h1 x).trans (h2 x).symm)

/-- Witness for C10: the two enumeration orders of probe2's matched
set resolve identically on the toy schema. -/
theorem C10_enumeration_order_irrelevant_witness :
    toy.get_by_mapping_from
        ["affects", "negatively regulates, process to process"]
      = toy.get_by_mapping_from
        ["negatively regulates, process to process", "affects"] :=
  C10_enumeration_order_irrelevant toy "biolink:probe2" (by decide)
    ["affects", "negatively regulates, process to process"]
    ["negatively regulates, process to process", "affects"]
    (by
      intro x
      have heq : toy.get_all_by_mapping "biolink:probe2"
          = ["affects", "negatively regulates, process to process"] := by
        decide
      rw [heq])
    (by
      intro x
      have heq : toy.get_all_by_mapping "biolink:probe2"
          = ["affects", "negatively regulates, process to process"] := by
        decide
      rw [heq]
      simp only [List.mem_cons, List.not_mem_nil, or_false]
      exact or_comm)

/-!
## Soft-fail behaviour on unmatched inputs (claim C4)
-/

theorem parent_none_of_unknown {T : Toolkit} {s : String}
    (hs1 : s ∉ T.slots.map (fun kv => kv.1))
    (hs2 : s ∉ T.classes.map (fun kv => kv.1)) :
    T.parent s = Option.none := by
  unfold Toolkit.parent
  rw [alookup_parentsD, alookup_class_parents, alookup_slot_parents,
    (alookup_eq_none_iff s T.classes).mpr hs2,
    (alookup_eq_none_iff s T.slots).mpr hs1]
  rfl

theorem ancestors_nil_of_parent_none {T : Toolkit} {s : String}
    (h : T.parent s = Option.none) : T.ancestors s = [] := by
  unfold Toolkit.ancestors
  show ancAux T (T.parentsD.length + 1) s = []
  simp [ancAux, h]

theorem childrenO_nil_of_unmatched {T : Toolkit} {k : Option String}
    (h1 : k ∉ T.slots.map (fun kv => kv.2.is_a))
    (h2 : k ∉ T.classes.map (fun kv => kv.2.is_a)) :
    T.childrenO k = [] := by
  unfold Toolkit.childrenO
  rw [alookup_childrenD]
  have hc : alookup k T.class_children = Option.none := by
    unfold Toolkit.class_children
    apply buildChildren_none_of_notMem
    rw [pairsOf_class_parents, List.map_map]
    exact h2
  have hs : alookup k T.slot_children = Option.none := by
    unfold Toolkit.slot_children
    apply buildChildren_none_of_notMem
    rw [pairsOf_slot_parents, List.map_map]
    exact h1
  rw [hc, hs]
  rfl

theorem descendents_nil_of_children_nil {T : Toolkit} {s : String}
    (h : T.childrenO (some s) = []) : T.descendents s = [] := by
  unfold Toolkit.descendents
  show descAux T (T.elements.length + 1) (some s) = []
  simp [descAux, h]

/-- Every value of the merged table comes from one of the two input
tables. -/
theorem mem_pyMerge_val {α β : Type} [DecidableEq α] {a b : List (α × β)}
    {kv : α × β} (h : kv ∈ pyMerge a b) :
    (∃ kv2 ∈ a, kv.2 = kv2.2) ∨ ∃ kv2 ∈ b, kv.2 = kv2.2 := by
  unfold pyMerge at h
  rcases List.mem_append.mp h with h1 | h1
  · rw [List.mem_map] at h1
    obtain ⟨kv1, hkv1, heq⟩ := h1
    cases hb : alookup kv1.1 b with
    | none =>
      left
      refine ⟨kv1, hkv1, ?_⟩
      rw [← heq]
      simp [hb]
    | some vb =>
      right
      refine ⟨(kv1.1, vb), alookup_mem hb, ?_⟩
      rw [← heq]
      simp [hb]
  · rw [List.mem_filter] at h1
    exact Or.inr ⟨kv, h1.1, rfl⟩

theorem get_all_by_mapping_nil {T : Toolkit} {s : String}
    (h1 : ∀ kv ∈ T.slots, s ∉ kv.2.mappings)
    (h2 : ∀ kv ∈ T.classes, s ∉ kv.2.mappings) :
    T.get_all_by_mapping s = [] := by
  unfold Toolkit.get_all_by_mapping
  have hf : T.elements.filter (fun kv => decide (s ∈ kv.2.mappings)) = [] := by
    rw [List.filter_eq_nil_iff]
    intro kv hkv
    rw [Bool.not_eq_true, decide_eq_false_iff_not]
    rcases mem_pyMerge_val hkv with ⟨kv2, hkv2, heq⟩ | ⟨kv2, hkv2, heq⟩
    · rw [heq]
      exact h1 kv2 hkv2
    · rw [heq]
      exact h2 kv2 hkv2
  rw [hf]
  rfl

namespace Toolkit

/-- An argument that matches nothing in the index: not the `None` root
marker (whose children group is queryable), and — when it is a string —
not an element name, not a recorded `is_a` value, not an identifier
claimed by any element's `mappings`, and not the literal root name
`"named thing"` (which `is_category` special-cases). -/
def Unmatched (T : Toolkit) (v : PyVal) : Prop :=
  v ≠ PyVal.none ∧
    ∀ s, v = PyVal.str s →
      s ∉ T.slots.map (fun kv => kv.1) ∧
      s ∉ T.classes.map (fun kv => kv.1) ∧
      some s ∉ T.slots.map (fun kv => kv.2.is_a) ∧
      some s ∉ T.classes.map (fun kv => kv.2.is_a) ∧
      (∀ kv ∈ T.slots, s ∉ kv.2.mappings) ∧
      (∀ kv ∈ T.classes, s ∉ kv.2.mappings) ∧
      s ≠ "named thing"

end Toolkit

/-- Claim C4, counterexample: `children(None)` — `None` names no
element — returns the class root group, not the designated empty
sequence. -/
def tkClassRoot : Toolkit :=
  ⟨[], [("b", ⟨Option.none, [], []⟩)]⟩

/-- Claim C4 fails as stated: a non-string input (`None`) makes
`children` return a non-absent result. -/
theorem C4_counterexample : tkClassRoot.childrenPy PyVal.none ≠ [] := by
  decide

/-- Claim C4, amended: no query operation raises (each embedding is a
total function), and every query given an input that matches nothing in
the index — any non-string value other than the queryable `None` root
marker, or a string that is neither an element name, a recorded parent
value, a mapped identifier, nor the special-cased `"named thing"` —
returns that operation's designated absent result. -/
theorem C4_unmatched_absent (T : Toolkit) (v : PyVal)
    (h : T.Unmatched v) :
    T.parentPy v = Option.none ∧
    T.childrenPy v = [] ∧
    T.ancestorsPy v = [] ∧
    T.descendentsPy v = [] ∧
    T.get_elementPy v = Option.none ∧
    T.is_edge_labelPy v = false ∧
    T.is_categoryPy v = false ∧
    T.get_all_by_mappingPy v = [] ∧
    T.get_by_mappingPy v = Option.none := by
  obtain ⟨hnone, hstr⟩ := h
  cases v with
  | none => exact absurd rfl hnone
  | int n =>
    refine ⟨rfl, rfl, rfl, rfl, rfl, rfl, ?_, rfl, rfl⟩
    simp [Toolkit.is_categoryPy, Toolkit.ancestorsPy]
  | float q =>
    refine ⟨rfl, rfl, rfl, rfl, rfl, rfl, ?_, rfl, rfl⟩
    simp [Toolkit.is_categoryPy, Toolkit.ancestorsPy]
  | str s =>
    obtain ⟨hk1, hk2, hp1, hp2, hm1, hm2, hnt⟩ := hstr s rfl
    have hparent : T.parent s = Option.none := parent_none_of_unknown hk1 hk2
    have hanc : T.ancestors s = [] := ancestors_nil_of_parent_none hparent
    have hch : T.childrenO (some s) = [] := childrenO_nil_of_unmatched hp1 hp2
    have hdesc : T.descendents s = [] := descendents_nil_of_children_nil hch
    have hel : T.get_element s = Option.none := by
      unfold Toolkit.get_element
      rw [alookup_elements, (alookup_eq_none_iff s T.classes).mpr hk2,
        (alookup_eq_none_iff s T.slots).mpr hk1]
      rfl
    have hall : T.get_all_by_mapping s = [] := get_all_by_mapping_nil hm1 hm2
    refine ⟨hparent, hch, hanc, hdesc, hel, ?_, ?_, hall, ?_⟩
    · show T.is_edge_label s = false
      unfold Toolkit.is_edge_label
      rw [hel]
    · unfold Toolkit.is_categoryPy
      have h1 : decide (PyVal.str s = PyVal.str "named thing") = false := by
        apply decide_eq_false
        intro he
        injection he with he2
        exact hnt he2
      have h2 : decide ("named thing" ∈ T.ancestorsPy (PyVal.str s))
          = false := by
        apply decide_eq_false
        show ¬ "named thing" ∈ T.ancestors s
        rw [hanc]
        exact List.not_mem_nil _
      rw [h1, h2]
      rfl
    · show T.get_by_mapping_from (T.get_all_by_mapping s) = Option.none
      rw [hall]
      rfl

/-- Witness for C4 (amended): the integer input `3` on the toy schema
yields the absent result for all nine operations. -/
theorem C4_unmatched_absent_witness :
    toy.parentPy (PyVal.int 3) = Option.none ∧
    toy.childrenPy (PyVal.int 3) = [] ∧
    toy.ancestorsPy (PyVal.int 3) = [] ∧
    toy.descendentsPy (PyVal.int 3) = [] ∧
    toy.get_elementPy (PyVal.int 3) = Option.none ∧
    toy.is_edge_labelPy (PyVal.int 3) = false ∧
    toy.is_categoryPy (PyVal.int 3) = false ∧
    toy.get_all_by_mappingPy (PyVal.int 3) = [] ∧
    toy.get_by_mappingPy (PyVal.int 3) = Option.none :=
  C4_unmatched_absent toy (PyVal.int 3)
    (by
      unfold Toolkit.Unmatched
      constructor
      · intro h
        cases h
      · intro s h
        cases h)

end BmtLite
